import Mathlib

/-!
Shallow embedding of the LRU cache engine of
`Custom-LRUCached-Developer-Dictionary` (file `cache.js`, class `LRUCache`),
together with proofs of the specification claims about it.

Modelling choices, all taken from the source:

* The doubly-linked recency sequence with `head`/`tail` sentinels is modelled
  by the list of its non-sentinel nodes, most-recently-used first
  (`seq : List (String × JSVal)`); `head.next = tail` corresponds to `seq = []`.
  `removeNode` becomes removal of the node's entry, `addToFront` becomes
  consing, `moveToFront` is their composition, and `tail.prev` is the last
  element of the list.
* The backing index `this.cache` is a plain JavaScript object literal `{}`.
  Its own enumerable keys are modelled by `cache : List String` (order of
  property insertion).  Crucially, the JavaScript `in` operator used by the
  source (`key in this.cache`) also finds inherited properties of
  `Object.prototype`; this is modelled faithfully by `jsIn`, which consults
  the list `protoKeys` of `Object.prototype` member names.
* JavaScript values are modelled by `JSVal`, with a distinguished
  `JSVal.undef` for `undefined` (what `get` returns on a miss, and also a
  perfectly storable payload).
* Operations that throw a `TypeError` in JavaScript (e.g. `get("toString")`
  on a fresh cache reaches `moveToFront` with a non-node object whose
  `prev` is `undefined`) are modelled by returning `none`; in such a case no
  field of the cache object has been mutated yet, so the driver `step`
  leaves the state unchanged, matching the `try`/`catch` in every caller.
* `size` and `capacity` are JavaScript numbers and may go negative
  (`this.size--`), so they are modelled as `Int`.
-/

namespace LRUModel

/-- A JavaScript value: `undefined`, `null`, booleans, numbers, strings, or
an (opaque) object identity.  `undef` is what a property read on a missing
key yields. -/
inductive JSVal where
  | undef : JSVal
  | nullv : JSVal
  | boolv : Bool → JSVal
  | num : Int → JSVal
  | str : String → JSVal
  | obj : Nat → JSVal
deriving DecidableEq, Repr

/-- The property names every plain object literal `{}` inherits from
`Object.prototype`; the JavaScript `in` operator finds all of these on
`this.cache` even when nothing was ever stored. -/
def protoKeys : List String :=
  ["constructor", "hasOwnProperty", "isPrototypeOf", "propertyIsEnumerable",
   "toLocaleString", "toString", "valueOf", "__defineGetter__",
   "__defineSetter__", "__lookupGetter__", "__lookupSetter__", "__proto__"]

/-- Boolean membership test on a list of keys (own-property check). -/
def memStr (k : String) : List String → Bool
  | [] => false
  | s :: rest => if s = k then true else memStr k rest

/-- The JavaScript `key in obj` operator on the object literal `this.cache`:
true when `key` is an own property or a property inherited from
`Object.prototype`. -/
def jsIn (cache : List String) (k : String) : Bool :=
  memStr k cache || memStr k protoKeys

/-- Look up the value stored with a key in the recency sequence
(dereferencing `this.cache[key].value` for an own key). -/
def findVal? (k : String) : List (String × JSVal) → Option JSVal
  | [] => none
  | e :: rest => if e.1 = k then some e.2 else findVal? k rest

/-- `removeNode` at the list level: unlink the (unique) node with the given
key, keeping every other node in order. -/
def removeKey (k : String) : List (String × JSVal) → List (String × JSVal)
  | [] => []
  | e :: rest => if e.1 = k then rest else e :: removeKey k rest

/-- `delete this.cache[key]` at the list level: drop the own property with
the given name, a no-op when absent. -/
def removeStr (k : String) : List String → List String
  | [] => []
  | s :: rest => if s = k then rest else s :: removeStr k rest

/-- `addToFront`: link a node immediately after `head`. -/
def addToFront (e : String × JSVal) (l : List (String × JSVal)) :
    List (String × JSVal) :=
  e :: l

/-- `moveToFront`: `removeNode` followed by `addToFront` (the node carries
its current value). -/
def moveToFront (k : String) (v : JSVal) (l : List (String × JSVal)) :
    List (String × JSVal) :=
  addToFront (k, v) (removeKey k l)

/-- JavaScript string coercion of the key returned by `removeLRU` when it is
used as a property name in `delete this.cache[lruKey]`: `null` coerces to
the string `"null"`. -/
def keyToString : Option String → String
  | some s => s
  | none => "null"

/-- The cache state: fixed `capacity`, the own keys of the backing object
`this.cache`, the non-sentinel nodes of the recency sequence (MRU first,
each carrying its key and value), and the `size` counter. -/
structure LRUCache where
  capacity : Int
  cache : List String
  seq : List (String × JSVal)
  size : Int
deriving DecidableEq, Repr

namespace LRUCache

/-- The constructor: `this.cache = {}`, `this.size = 0`, head and tail
sentinels linked to each other (empty sequence).  No validation of
`capacity` is performed. -/
def init (capacity : Int) : LRUCache :=
  { capacity := capacity, cache := [], seq := [], size := 0 }

/-- `removeLRU`: the node before `tail` is the last list element; if the
sequence is empty (that node is `head`) return `null`, else unlink it and
return its key. -/
def removeLRU (c : LRUCache) : LRUCache × Option String :=
  match c.seq.getLast? with
  | none => (c, none)
  | some last => ({ c with seq := c.seq.dropLast }, some last.1)

/-- `get(key)`: miss (`!(key in this.cache)`) returns `undefined` with no
mutation; an own key is moved to the front and its value returned; a key
found only on the prototype chain makes `moveToFront` dereference
`undefined.prev` and throw (`none`). -/
def get (c : LRUCache) (k : String) : Option (LRUCache × JSVal) :=
  if jsIn c.cache k = false then
    some (c, JSVal.undef)
  else if memStr k c.cache then
    match findVal? k c.seq with
    | some v => some ({ c with seq := moveToFront k v c.seq }, v)
    | none => none
  else
    none

/-- `put(key, value)`: an existing own key has its node's value replaced and
is moved to the front; a key visible only via the prototype chain throws
inside `moveToFront` (`none`); a new key triggers `removeLRU` plus index
delete and `size--` when `size === capacity`, then the new node is linked
at the front, indexed, and `size++`. -/
def put (c : LRUCache) (k : String) (v : JSVal) : Option LRUCache :=
  if jsIn c.cache k then
    if memStr k c.cache then
      some { c with seq := moveToFront k v c.seq }
    else
      none
  else
    let c1 :=
      if c.size = c.capacity then
        let r := c.removeLRU
        { r.1 with cache := removeStr (keyToString r.2) r.1.cache,
                   size := r.1.size - 1 }
      else c
    some { c1 with seq := addToFront (k, v) c1.seq,
                   cache := c1.cache ++ [k],
                   size := c1.size + 1 }

/-- `delete(key)`: absent keys (per `in`) return `false` with no mutation;
an own key is unlinked, removed from the index, `size--`, returning `true`;
a prototype-only key throws inside `removeNode` (`none`). -/
def delete (c : LRUCache) (k : String) : Option (LRUCache × Bool) :=
  if jsIn c.cache k = false then
    some (c, false)
  else if memStr k c.cache then
    some ({ c with seq := removeKey k c.seq,
                   cache := removeStr k c.cache,
                   size := c.size - 1 }, true)
  else
    none

/-- `clear()`: reset the index to `{}`, `size` to `0`, and relink the
sentinels to each other. -/
def clear (c : LRUCache) : LRUCache :=
  { c with cache := [], seq := [], size := 0 }

/-- The walk of `getContents`: from `head.next` to the node before `tail`,
pushing `{ key, value }` records. -/
def walk : List (String × JSVal) → List (String × JSVal)
  | [] => []
  | e :: rest => (e.1, e.2) :: walk rest

/-- `getContents()`: snapshot of the recency sequence from MRU to LRU. -/
def getContents (c : LRUCache) : List (String × JSVal) :=
  walk c.seq

/-- `has(key)`: `key in this.cache` (including inherited properties). -/
def has (c : LRUCache) (k : String) : Bool :=
  jsIn c.cache k

end LRUCache

/-- One cache operation, as issued by a caller. -/
inductive Op where
  | get : String → Op
  | put : String → JSVal → Op
  | delete : String → Op
  | has : String → Op
  | contents : Op
  | clear : Op
deriving DecidableEq, Repr

/-- The state transition of one operation.  An operation that throws
(`none`) leaves the cache fields unchanged — in the source no field of the
cache has been mutated at the point of the `TypeError`, and every caller
wraps calls in `try`/`catch`, so the instance survives. -/
def step (c : LRUCache) : Op → LRUCache
  | Op.get k =>
      match c.get k with
      | some r => r.1
      | none => c
  | Op.put k v =>
      match c.put k v with
      | some c1 => c1
      | none => c
  | Op.delete k =>
      match c.delete k with
      | some r => r.1
      | none => c
  | Op.has _ => c
  | Op.contents => c
  | Op.clear => c.clear

/-- Run a finite sequence of operations from a state. -/
def run (c : LRUCache) (ops : List Op) : LRUCache :=
  ops.foldl step c

/-- The operation list that puts each given entry in order. -/
def puts (es : List (String × JSVal)) : List Op :=
  es.map (fun e => Op.put e.1 e.2)

/-- The keys an operation mentions. -/
def opKeys : Op → List String
  | Op.get k => [k]
  | Op.put k _ => [k]
  | Op.delete k => [k]
  | Op.has k => [k]
  | Op.contents => []
  | Op.clear => []

/-- No operation in the list mentions an `Object.prototype` property name as
its key. -/
def noProto (ops : List Op) : Prop :=
  ∀ op ∈ ops, ∀ k ∈ opKeys op, memStr k protoKeys = false

instance : DecidablePred noProto := fun ops =>
  inferInstanceAs (Decidable (∀ op ∈ ops, ∀ k ∈ opKeys op, memStr k protoKeys = false))

/-- The representation invariant tying the three pieces of state together:
positive capacity, `size` counting the sequence nodes, the index keys a
permutation of the sequence keys (same keys, each once), no key shadowing an
`Object.prototype` property, and `size` bounded by `capacity`. -/
structure Wf (c : LRUCache) : Prop where
  cap_pos : 1 ≤ c.capacity
  size_eq : c.size = (c.seq.length : Int)
  perm : c.cache.Perm (c.seq.map Prod.fst)
  nodup : c.cache.Nodup
  no_proto : ∀ k ∈ c.cache, memStr k protoKeys = false
  size_le : c.size ≤ c.capacity

/-- Spec-side lookup of a key among the entries (first entry with that
key). -/
def specLookup (k : String) (l : List (String × JSVal)) : Option JSVal :=
  (l.find? (fun e => e.1 == k)).map Prod.snd

/-- Spec-side model of one operation on the abstract recency-ordered list of
entries (most recent first), following the specification text of §4.1:
`get` on a present key relinks the entry immediately after `head`; `put` on
an existing key replaces the value and promotes; `put` on a new key first
evicts the node before `tail` when `size == capacity`, then links the new
entry at the front; `delete` unlinks the entry; `has` and `getContents` do
not mutate; `clear` resets to the sentinel-only state. -/
def specStep (cap : Int) (l : List (String × JSVal)) : Op → List (String × JSVal)
  | Op.get k =>
      match specLookup k l with
      | some v => (k, v) :: l.filter (fun e => !(e.1 == k))
      | none => l
  | Op.put k v =>
      match specLookup k l with
      | some _ => (k, v) :: l.filter (fun e => !(e.1 == k))
      | none =>
          if (l.length : Int) = cap then (k, v) :: l.dropLast
          else (k, v) :: l
  | Op.delete k => l.filter (fun e => !(e.1 == k))
  | Op.has _ => l
  | Op.contents => l
  | Op.clear => []

/-- Spec-side run of a sequence of operations. -/
def specRun (cap : Int) (l : List (String × JSVal)) (ops : List Op) :
    List (String × JSVal) :=
  ops.foldl (specStep cap) l

/-! ### Basic lemmas about the list-level helpers -/

theorem memStr_iff {k : String} {l : List String} : memStr k l = true ↔ k ∈ l := by
  induction l with
  | nil => simp [memStr]
  | cons s rest ih =>
    by_cases h : s = k
    · subst h; simp [memStr]
    · simp only [memStr, if_neg h, List.mem_cons, ih]
      exact ⟨Or.inr, fun hm => hm.elim (fun he => absurd he.symm h) id⟩

theorem memStr_eq_false {k : String} {l : List String} :
    memStr k l = false ↔ k ∉ l := by
  rw [← memStr_iff]
  cases memStr k l <;> simp

theorem removeStr_eq_erase (k : String) (l : List String) :
    removeStr k l = l.erase k := by
  induction l with
  | nil => rfl
  | cons s rest ih =>
    by_cases h : s = k
    · simp [removeStr, h, List.erase_cons]
    · simp [removeStr, h, List.erase_cons, ih]

theorem removeKey_map_fst (k : String) (l : List (String × JSVal)) :
    (removeKey k l).map Prod.fst = (l.map Prod.fst).erase k := by
  induction l with
  | nil => rfl
  | cons e rest ih =>
    by_cases h : e.1 = k
    · simp [removeKey, h, List.erase_cons]
    · simp [removeKey, h, List.erase_cons, ih]

theorem filter_ne_eq_self {k : String} {l : List (String × JSVal)}
    (h : k ∉ l.map Prod.fst) : l.filter (fun e => !(e.1 == k)) = l := by
  induction l with
  | nil => rfl
  | cons e rest ih =>
    simp only [List.map_cons, List.mem_cons] at h
    push_neg at h
    simp [List.filter_cons, Ne.symm h.1, ih h.2]

theorem removeKey_eq_filter {k : String} {l : List (String × JSVal)}
    (h : (l.map Prod.fst).Nodup) :
    removeKey k l = l.filter (fun e => !(e.1 == k)) := by
  induction l with
  | nil => rfl
  | cons e rest ih =>
    simp only [List.map_cons, List.nodup_cons] at h
    by_cases he : e.1 = k
    · subst he
      simp [removeKey, List.filter_cons, filter_ne_eq_self h.1]
    · simp [removeKey, he, List.filter_cons, Ne.symm he, ih h.2]

theorem findVal?_eq_none {k : String} {l : List (String × JSVal)} :
    findVal? k l = none ↔ k ∉ l.map Prod.fst := by
  induction l with
  | nil => simp [findVal?]
  | cons e rest ih =>
    by_cases h : e.1 = k
    · simp [findVal?, h]
    · simp only [findVal?, if_neg h, List.map_cons, List.mem_cons, ih]
      exact ⟨fun hn hm => hm.elim (fun he => absurd he.symm h) hn,
             fun hn hm => hn (Or.inr hm)⟩

theorem findVal?_mem {k : String} {v : JSVal} {l : List (String × JSVal)}
    (h : findVal? k l = some v) : (k, v) ∈ l := by
  induction l with
  | nil => simp [findVal?] at h
  | cons e rest ih =>
    by_cases he : e.1 = k
    · have hv : e.2 = v := by simpa [findVal?, he] using h
      have hkv : (k, v) = e := by
        obtain ⟨a, b⟩ := e
        simp only [Prod.mk.injEq]
        exact ⟨he.symm, hv.symm⟩
      rw [hkv]
      exact List.mem_cons_self e rest
    · simp only [findVal?, if_neg he] at h
      exact List.mem_cons_of_mem e (ih h)

theorem findVal?_of_mem {k : String} {l : List (String × JSVal)}
    (h : k ∈ l.map Prod.fst) : ∃ v, findVal? k l = some v := by
  rcases hf : findVal? k l with _ | v
  · exact absurd h (findVal?_eq_none.mp hf)
  · exact ⟨v, rfl⟩

theorem findVal?_append_of_not_mem {k : String} {l l' : List (String × JSVal)}
    (h : k ∉ l.map Prod.fst) : findVal? k (l ++ l') = findVal? k l' := by
  induction l with
  | nil => rfl
  | cons e rest ih =>
    simp only [List.map_cons, List.mem_cons] at h
    push_neg at h
    simp [findVal?, Ne.symm h.1, ih h.2]

theorem removeKey_append_of_not_mem {k : String} {l l' : List (String × JSVal)}
    (h : k ∉ l.map Prod.fst) : removeKey k (l ++ l') = l ++ removeKey k l' := by
  induction l with
  | nil => rfl
  | cons e rest ih =>
    simp only [List.map_cons, List.mem_cons] at h
    push_neg at h
    simp [removeKey, Ne.symm h.1, ih h.2]

theorem walk_eq (l : List (String × JSVal)) : LRUCache.walk l = l := by
  induction l with
  | nil => rfl
  | cons e rest ih => simp [LRUCache.walk, ih]

theorem specLookup_eq_findVal? (k : String) (l : List (String × JSVal)) :
    specLookup k l = findVal? k l := by
  induction l with
  | nil => rfl
  | cons e rest ih =>
    by_cases h : e.1 = k
    · rw [specLookup, List.find?_cons_of_pos _ (by simpa using h)]
      simp [findVal?, h]
    · rw [specLookup, List.find?_cons_of_neg _ (by simpa using h)]
      rw [findVal?, if_neg h]
      exact ih

/-! ### Characterisation of the individual operations -/

theorem jsIn_eq_false_iff {cache : List String} {k : String} :
    jsIn cache k = false ↔ memStr k cache = false ∧ memStr k protoKeys = false := by
  simp [jsIn]

theorem jsIn_of_own {cache : List String} {k : String}
    (h : memStr k cache = true) : jsIn cache k = true := by
  simp [jsIn, h]

theorem get_miss {c : LRUCache} {k : String} (h : jsIn c.cache k = false) :
    c.get k = some (c, JSVal.undef) := by
  simp [LRUCache.get, h]

theorem get_own {c : LRUCache} {k : String} {v : JSVal}
    (h : memStr k c.cache = true) (hv : findVal? k c.seq = some v) :
    c.get k = some ({ c with seq := (k, v) :: removeKey k c.seq }, v) := by
  rw [LRUCache.get, if_neg (by simp [jsIn_of_own h]), if_pos h, hv]
  rfl

theorem get_proto {c : LRUCache} {k : String}
    (h1 : memStr k c.cache = false) (h2 : memStr k protoKeys = true) :
    c.get k = none := by
  rw [LRUCache.get, if_neg (by simp [jsIn, h1, h2]), if_neg (by simp [h1])]

theorem put_own {c : LRUCache} {k : String} {v : JSVal}
    (h : memStr k c.cache = true) :
    c.put k v = some { c with seq := (k, v) :: removeKey k c.seq } := by
  rw [LRUCache.put, if_pos (jsIn_of_own h), if_pos h]
  rfl

theorem put_proto {c : LRUCache} {k : String} {v : JSVal}
    (h1 : memStr k c.cache = false) (h2 : memStr k protoKeys = true) :
    c.put k v = none := by
  rw [LRUCache.put, if_pos (by simp [jsIn, h1, h2]), if_neg (by simp [h1])]

theorem put_fresh_notfull {c : LRUCache} {k : String} {v : JSVal}
    (h : jsIn c.cache k = false) (hsz : ¬ c.size = c.capacity) :
    c.put k v = some { c with seq := (k, v) :: c.seq,
                              cache := c.cache ++ [k],
                              size := c.size + 1 } := by
  rw [LRUCache.put, if_neg (by simp [h])]
  simp only [if_neg hsz]
  rfl

theorem put_fresh_full {c : LRUCache} {k : String} {v : JSVal}
    {dl : List (String × JSVal)} {last : String × JSVal}
    (h : jsIn c.cache k = false) (hsz : c.size = c.capacity)
    (hseq : c.seq = dl ++ [last]) :
    c.put k v = some { capacity := c.capacity,
                       cache := removeStr last.1 c.cache ++ [k],
                       seq := (k, v) :: dl,
                       size := c.size } := by
  rw [LRUCache.put, if_neg (by simp [h])]
  simp only [if_pos hsz, LRUCache.removeLRU, hseq, List.getLast?_concat,
    List.dropLast_concat, keyToString, addToFront]
  congr 1
  refine LRUCache.mk.injEq .. |>.mpr ⟨rfl, rfl, rfl, by omega⟩

theorem delete_miss {c : LRUCache} {k : String} (h : jsIn c.cache k = false) :
    c.delete k = some (c, false) := by
  simp [LRUCache.delete, h]

theorem delete_own {c : LRUCache} {k : String} (h : memStr k c.cache = true) :
    c.delete k = some ({ c with seq := removeKey k c.seq,
                                cache := removeStr k c.cache,
                                size := c.size - 1 }, true) := by
  rw [LRUCache.delete, if_neg (by simp [jsIn_of_own h]), if_pos h]

theorem delete_proto {c : LRUCache} {k : String}
    (h1 : memStr k c.cache = false) (h2 : memStr k protoKeys = true) :
    c.delete k = none := by
  rw [LRUCache.delete, if_neg (by simp [jsIn, h1, h2]), if_neg (by simp [h1])]

/-! ### `step`-level characterisation -/

theorem step_get_own {c : LRUCache} {k : String} {v : JSVal}
    (h : memStr k c.cache = true) (hv : findVal? k c.seq = some v) :
    step c (Op.get k) = { c with seq := (k, v) :: removeKey k c.seq } := by
  simp [step, get_own h hv]

theorem step_get_not_own {c : LRUCache} {k : String}
    (h : memStr k c.cache = false) : step c (Op.get k) = c := by
  rcases hp : memStr k protoKeys with _ | _
  · simp [step, get_miss (jsIn_eq_false_iff.mpr ⟨h, hp⟩)]
  · simp [step, get_proto h hp]

theorem step_put_own {c : LRUCache} {k : String} {v : JSVal}
    (h : memStr k c.cache = true) :
    step c (Op.put k v) = { c with seq := (k, v) :: removeKey k c.seq } := by
  simp [step, put_own h]

theorem step_put_proto {c : LRUCache} {k : String} {v : JSVal}
    (h1 : memStr k c.cache = false) (h2 : memStr k protoKeys = true) :
    step c (Op.put k v) = c := by
  simp [step, put_proto h1 h2]

theorem step_put_fresh_notfull {c : LRUCache} {k : String} {v : JSVal}
    (h : jsIn c.cache k = false) (hsz : ¬ c.size = c.capacity) :
    step c (Op.put k v) = { c with seq := (k, v) :: c.seq,
                                   cache := c.cache ++ [k],
                                   size := c.size + 1 } := by
  simp [step, put_fresh_notfull h hsz]

theorem step_put_fresh_full {c : LRUCache} {k : String} {v : JSVal}
    {dl : List (String × JSVal)} {last : String × JSVal}
    (h : jsIn c.cache k = false) (hsz : c.size = c.capacity)
    (hseq : c.seq = dl ++ [last]) :
    step c (Op.put k v) = { capacity := c.capacity,
                            cache := removeStr last.1 c.cache ++ [k],
                            seq := (k, v) :: dl,
                            size := c.size } := by
  simp [step, put_fresh_full h hsz hseq]

theorem step_delete_miss {c : LRUCache} {k : String}
    (h : jsIn c.cache k = false) : step c (Op.delete k) = c := by
  simp [step, delete_miss h]

theorem step_delete_own {c : LRUCache} {k : String}
    (h : memStr k c.cache = true) :
    step c (Op.delete k) = { c with seq := removeKey k c.seq,
                                    cache := removeStr k c.cache,
                                    size := c.size - 1 } := by
  simp [step, delete_own h]

theorem step_delete_proto {c : LRUCache} {k : String}
    (h1 : memStr k c.cache = false) (h2 : memStr k protoKeys = true) :
    step c (Op.delete k) = c := by
  simp [step, delete_proto h1 h2]

theorem step_has (c : LRUCache) (k : String) : step c (Op.has k) = c := rfl

theorem step_contents (c : LRUCache) : step c Op.contents = c := rfl

theorem step_clear (c : LRUCache) : step c Op.clear = c.clear := rfl

theorem get_own_nofind {c : LRUCache} {k : String}
    (h : memStr k c.cache = true) (hv : findVal? k c.seq = none) :
    c.get k = none := by
  rw [LRUCache.get, if_neg (by simp [jsIn_of_own h]), if_pos h, hv]

/-! ### Consequences of well-formedness -/

theorem Wf.keys_nodup {c : LRUCache} (hWf : Wf c) :
    (c.seq.map Prod.fst).Nodup :=
  hWf.perm.nodup_iff.mp hWf.nodup

theorem Wf.mem_keys_of_own {c : LRUCache} {k : String} (hWf : Wf c)
    (h : memStr k c.cache = true) : k ∈ c.seq.map Prod.fst :=
  hWf.perm.mem_iff.mp (memStr_iff.mp h)

theorem Wf.not_mem_keys_of_not_own {c : LRUCache} {k : String} (hWf : Wf c)
    (h : memStr k c.cache = false) : k ∉ c.seq.map Prod.fst :=
  fun hm => memStr_eq_false.mp h (hWf.perm.mem_iff.mpr hm)

theorem Wf.cache_length {c : LRUCache} (hWf : Wf c) :
    c.cache.length = c.seq.length := by
  have := hWf.perm.length_eq
  simpa using this

/-! ### Preservation of well-formedness -/

theorem wf_init {cap : Int} (h : 1 ≤ cap) : Wf (LRUCache.init cap) := by
  refine ⟨h, rfl, List.Perm.refl _, List.nodup_nil, ?_, ?_⟩
  · intro k hk; simp [LRUCache.init] at hk
  · simp [LRUCache.init]; omega

theorem wf_promote {c : LRUCache} {k : String} {v : JSVal} (hWf : Wf c)
    (h : memStr k c.cache = true) :
    Wf { c with seq := (k, v) :: removeKey k c.seq } := by
  have hk : k ∈ c.seq.map Prod.fst := hWf.mem_keys_of_own h
  have hlen : ((c.seq.map Prod.fst).erase k).length + 1 = c.seq.length := by
    rw [List.length_erase_of_mem hk]
    have : 0 < (c.seq.map Prod.fst).length := List.length_pos.mpr
      (List.ne_nil_of_mem hk)
    simp only [List.length_map] at this ⊢
    omega
  refine ⟨hWf.cap_pos, ?_, ?_, hWf.nodup, hWf.no_proto, hWf.size_le⟩
  · show c.size = ((((k, v) :: removeKey k c.seq).length : Nat) : Int)
    rw [List.length_cons]
    have h2 : (removeKey k c.seq).length = ((c.seq.map Prod.fst).erase k).length := by
      rw [← removeKey_map_fst, List.length_map]
    rw [hWf.size_eq, h2]
    omega
  · show c.cache.Perm (((k, v) :: removeKey k c.seq).map Prod.fst)
    rw [List.map_cons, removeKey_map_fst]
    exact hWf.perm.trans (List.perm_cons_erase hk)

theorem wf_put_fresh_notfull {c : LRUCache} {k : String} {v : JSVal}
    (hWf : Wf c) (h : jsIn c.cache k = false) (hsz : ¬ c.size = c.capacity) :
    Wf { c with seq := (k, v) :: c.seq,
                cache := c.cache ++ [k],
                size := c.size + 1 } := by
  obtain ⟨hown, hproto⟩ := jsIn_eq_false_iff.mp h
  have hkc : k ∉ c.cache := memStr_eq_false.mp hown
  have hperm : (c.cache ++ [k]).Perm (k :: c.cache) := List.perm_append_singleton k c.cache
  refine ⟨hWf.cap_pos, ?_, ?_, ?_, ?_, ?_⟩
  · show c.size + 1 = (((k, v) :: c.seq).length : Int)
    rw [List.length_cons, hWf.size_eq]
    omega
  · show (c.cache ++ [k]).Perm (((k, v) :: c.seq).map Prod.fst)
    rw [List.map_cons]
    exact hperm.trans (hWf.perm.cons k)
  · exact hperm.nodup_iff.mpr (List.nodup_cons.mpr ⟨hkc, hWf.nodup⟩)
  · intro x hx
    rcases List.mem_append.mp hx with hx | hx
    · exact hWf.no_proto x hx
    · rw [List.mem_singleton.mp hx]; exact hproto
  · show c.size + 1 ≤ c.capacity
    have := hWf.size_le
    omega

theorem wf_put_fresh_full {c : LRUCache} {k : String} {v : JSVal}
    {dl : List (String × JSVal)} {last : String × JSVal}
    (hWf : Wf c) (h : jsIn c.cache k = false) (_hsz : c.size = c.capacity)
    (hseq : c.seq = dl ++ [last]) :
    Wf { capacity := c.capacity,
         cache := removeStr last.1 c.cache ++ [k],
         seq := (k, v) :: dl,
         size := c.size } := by
  obtain ⟨hown, hproto⟩ := jsIn_eq_false_iff.mp h
  have hkc : k ∉ c.cache := memStr_eq_false.mp hown
  have hkeys : c.seq.map Prod.fst = dl.map Prod.fst ++ [last.1] := by
    rw [hseq, List.map_append]; rfl
  have hpermkeys : (c.seq.map Prod.fst).Perm (last.1 :: dl.map Prod.fst) :=
    hkeys ▸ List.perm_append_singleton last.1 (dl.map Prod.fst)
  have hcp : c.cache.Perm (last.1 :: dl.map Prod.fst) := hWf.perm.trans hpermkeys
  have herase : (c.cache.erase last.1).Perm (dl.map Prod.fst) := by
    have := hcp.erase last.1
    rwa [List.erase_cons_head] at this
  have hknotin : k ∉ c.cache.erase last.1 :=
    fun hm => hkc (List.mem_of_mem_erase hm)
  have hperm2 : (removeStr last.1 c.cache ++ [k]).Perm (k :: c.cache.erase last.1) := by
    rw [removeStr_eq_erase]
    exact List.perm_append_singleton k _
  refine ⟨hWf.cap_pos, ?_, ?_, ?_, ?_, ?_⟩
  · show c.size = (((k, v) :: dl).length : Int)
    rw [List.length_cons, hWf.size_eq, hseq, List.length_append]
    simp
  · show (removeStr last.1 c.cache ++ [k]).Perm (((k, v) :: dl).map Prod.fst)
    rw [List.map_cons]
    exact hperm2.trans (herase.cons k)
  · exact hperm2.nodup_iff.mpr (List.nodup_cons.mpr ⟨hknotin, hWf.nodup.erase last.1⟩)
  · intro x hx
    rcases List.mem_append.mp hx with hx | hx
    · rw [removeStr_eq_erase] at hx
      exact hWf.no_proto x (List.mem_of_mem_erase hx)
    · rw [List.mem_singleton.mp hx]; exact hproto
  · show c.size ≤ c.capacity
    exact hWf.size_le

theorem wf_delete_own {c : LRUCache} {k : String} (hWf : Wf c)
    (h : memStr k c.cache = true) :
    Wf { c with seq := removeKey k c.seq,
                cache := removeStr k c.cache,
                size := c.size - 1 } := by
  have hk : k ∈ c.seq.map Prod.fst := hWf.mem_keys_of_own h
  have hpos : 0 < (c.seq.map Prod.fst).length :=
    List.length_pos.mpr (List.ne_nil_of_mem hk)
  refine ⟨hWf.cap_pos, ?_, ?_, ?_, ?_, ?_⟩
  · show c.size - 1 = ((removeKey k c.seq).length : Int)
    have h2 : (removeKey k c.seq).length = ((c.seq.map Prod.fst).erase k).length := by
      rw [← removeKey_map_fst, List.length_map]
    rw [h2, List.length_erase_of_mem hk, hWf.size_eq]
    simp only [List.length_map] at hpos ⊢
    omega
  · show (removeStr k c.cache).Perm ((removeKey k c.seq).map Prod.fst)
    rw [removeStr_eq_erase, removeKey_map_fst]
    exact hWf.perm.erase k
  · rw [removeStr_eq_erase]
    exact hWf.nodup.erase k
  · intro x hx
    rw [removeStr_eq_erase] at hx
    exact hWf.no_proto x (List.mem_of_mem_erase hx)
  · show c.size - 1 ≤ c.capacity
    have := hWf.size_le
    omega

theorem wf_clear {c : LRUCache} (hWf : Wf c) : Wf c.clear := by
  refine ⟨hWf.cap_pos, rfl, List.Perm.refl _, List.nodup_nil, ?_, ?_⟩
  · intro k hk; simp [LRUCache.clear] at hk
  · show (0 : Int) ≤ c.capacity
    have := hWf.cap_pos
    omega

theorem seq_ne_nil_of_full {c : LRUCache} (hWf : Wf c)
    (hsz : c.size = c.capacity) : c.seq ≠ [] := by
  intro h0
  have := hWf.size_eq
  rw [h0] at this
  have := hWf.cap_pos
  simp at *
  omega

theorem wf_step {c : LRUCache} (hWf : Wf c) (op : Op) : Wf (step c op) := by
  cases op with
  | get k =>
    by_cases hown : memStr k c.cache = true
    · obtain ⟨v, hv⟩ := findVal?_of_mem (hWf.mem_keys_of_own hown)
      rw [step_get_own hown hv]
      exact wf_promote hWf hown
    · rw [step_get_not_own (by simpa using hown)]
      exact hWf
  | put k v =>
    by_cases hown : memStr k c.cache = true
    · rw [step_put_own hown]
      exact wf_promote hWf hown
    · have hown' : memStr k c.cache = false := by simpa using hown
      by_cases hproto : memStr k protoKeys = true
      · rw [step_put_proto hown' hproto]
        exact hWf
      · have hin : jsIn c.cache k = false :=
          jsIn_eq_false_iff.mpr ⟨hown', by simpa using hproto⟩
        by_cases hsz : c.size = c.capacity
        · have hne : c.seq ≠ [] := seq_ne_nil_of_full hWf hsz
          have hseq : c.seq = c.seq.dropLast ++ [c.seq.getLast hne] :=
            (List.dropLast_append_getLast hne).symm
          rw [step_put_fresh_full hin hsz hseq]
          exact wf_put_fresh_full hWf hin hsz hseq
        · rw [step_put_fresh_notfull hin hsz]
          exact wf_put_fresh_notfull hWf hin hsz
  | delete k =>
    by_cases hown : memStr k c.cache = true
    · rw [step_delete_own hown]
      exact wf_delete_own hWf hown
    · have hown' : memStr k c.cache = false := by simpa using hown
      by_cases hproto : memStr k protoKeys = true
      · rw [step_delete_proto hown' hproto]
        exact hWf
      · rw [step_delete_miss (jsIn_eq_false_iff.mpr ⟨hown', by simpa using hproto⟩)]
        exact hWf
  | has k => exact hWf
  | contents => exact hWf
  | clear => exact wf_clear hWf

theorem wf_run {c : LRUCache} (hWf : Wf c) (ops : List Op) : Wf (run c ops) := by
  induction ops generalizing c with
  | nil => exact hWf
  | cons op ops ih => exact ih (wf_step hWf op)

theorem step_capacity (c : LRUCache) (op : Op) :
    (step c op).capacity = c.capacity := by
  cases op with
  | get k =>
    by_cases hown : memStr k c.cache = true
    · rcases hv : findVal? k c.seq with _ | v
      · simp [step, get_own_nofind hown hv]
      · rw [step_get_own hown hv]
    · rw [step_get_not_own (by simpa using hown)]
  | put k v =>
    by_cases hown : memStr k c.cache = true
    · rw [step_put_own hown]
    · have hown' : memStr k c.cache = false := by simpa using hown
      by_cases hproto : memStr k protoKeys = true
      · rw [step_put_proto hown' hproto]
      · have hin : jsIn c.cache k = false :=
          jsIn_eq_false_iff.mpr ⟨hown', by simpa using hproto⟩
        by_cases hsz : c.size = c.capacity
        · rcases hseq : c.seq with _ | ⟨e, rest⟩
          · simp [step, LRUCache.put, hin, hsz, LRUCache.removeLRU, hseq]
          · have hne : c.seq ≠ [] := by rw [hseq]; simp
            have hdec : c.seq = c.seq.dropLast ++ [c.seq.getLast hne] :=
              (List.dropLast_append_getLast hne).symm
            rw [step_put_fresh_full hin hsz hdec]
        · rw [step_put_fresh_notfull hin hsz]
  | delete k =>
    by_cases hown : memStr k c.cache = true
    · rw [step_delete_own hown]
    · have hown' : memStr k c.cache = false := by simpa using hown
      by_cases hproto : memStr k protoKeys = true
      · rw [step_delete_proto hown' hproto]
      · rw [step_delete_miss (jsIn_eq_false_iff.mpr ⟨hown', by simpa using hproto⟩)]
  | has k => rfl
  | contents => rfl
  | clear => rfl

theorem run_capacity (c : LRUCache) (ops : List Op) :
    (run c ops).capacity = c.capacity := by
  induction ops generalizing c with
  | nil => rfl
  | cons op ops ih => rw [run, List.foldl_cons, ← run, ih, step_capacity]

/-! ### Refinement: the implementation's recency sequence follows the
spec-side model on every operation whose key does not shadow an
`Object.prototype` property -/

theorem step_seq_spec {c : LRUCache} (hWf : Wf c) (op : Op)
    (hk : ∀ k ∈ opKeys op, memStr k protoKeys = false) :
    (step c op).seq = specStep c.capacity c.seq op := by
  cases op with
  | get k =>
    have hproto : memStr k protoKeys = false := hk k (by simp [opKeys])
    by_cases hown : memStr k c.cache = true
    · obtain ⟨v, hv⟩ := findVal?_of_mem (hWf.mem_keys_of_own hown)
      rw [step_get_own hown hv]
      show (k, v) :: removeKey k c.seq = specStep c.capacity c.seq (Op.get k)
      rw [specStep, specLookup_eq_findVal?, hv,
        removeKey_eq_filter hWf.keys_nodup]
    · have hown' : memStr k c.cache = false := by simpa using hown
      rw [step_get_not_own hown']
      have hnone : findVal? k c.seq = none :=
        findVal?_eq_none.mpr (hWf.not_mem_keys_of_not_own hown')
      rw [specStep, specLookup_eq_findVal?, hnone]
  | put k v =>
    have hproto : memStr k protoKeys = false := hk k (by simp [opKeys])
    by_cases hown : memStr k c.cache = true
    · obtain ⟨v0, hv0⟩ := findVal?_of_mem (hWf.mem_keys_of_own hown)
      rw [step_put_own hown]
      show (k, v) :: removeKey k c.seq = specStep c.capacity c.seq (Op.put k v)
      rw [specStep, specLookup_eq_findVal?, hv0,
        removeKey_eq_filter hWf.keys_nodup]
    · have hown' : memStr k c.cache = false := by simpa using hown
      have hin : jsIn c.cache k = false := jsIn_eq_false_iff.mpr ⟨hown', hproto⟩
      have hnone : findVal? k c.seq = none :=
        findVal?_eq_none.mpr (hWf.not_mem_keys_of_not_own hown')
      by_cases hsz : c.size = c.capacity
      · have hne : c.seq ≠ [] := seq_ne_nil_of_full hWf hsz
        have hseq : c.seq = c.seq.dropLast ++ [c.seq.getLast hne] :=
          (List.dropLast_append_getLast hne).symm
        rw [step_put_fresh_full hin hsz hseq]
        show (k, v) :: c.seq.dropLast = specStep c.capacity c.seq (Op.put k v)
        rw [specStep, specLookup_eq_findVal?, hnone]
        rw [if_pos (by rw [← hWf.size_eq]; exact hsz)]
      · rw [step_put_fresh_notfull hin hsz]
        show (k, v) :: c.seq = specStep c.capacity c.seq (Op.put k v)
        rw [specStep, specLookup_eq_findVal?, hnone]
        rw [if_neg (by rw [← hWf.size_eq]; exact hsz)]
  | delete k =>
    have hproto : memStr k protoKeys = false := hk k (by simp [opKeys])
    by_cases hown : memStr k c.cache = true
    · rw [step_delete_own hown]
      show removeKey k c.seq = specStep c.capacity c.seq (Op.delete k)
      rw [specStep, removeKey_eq_filter hWf.keys_nodup]
    · have hown' : memStr k c.cache = false := by simpa using hown
      rw [step_delete_miss (jsIn_eq_false_iff.mpr ⟨hown', hproto⟩)]
      show c.seq = specStep c.capacity c.seq (Op.delete k)
      rw [specStep, filter_ne_eq_self (hWf.not_mem_keys_of_not_own hown')]
  | has k => rfl
  | contents => rfl
  | clear => rfl

theorem run_seq_spec {c : LRUCache} (hWf : Wf c) {ops : List Op}
    (hops : noProto ops) :
    (run c ops).seq = specRun c.capacity c.seq ops := by
  induction ops generalizing c with
  | nil => rfl
  | cons op ops ih =>
    have h1 : (step c op).seq = specStep c.capacity c.seq op :=
      step_seq_spec hWf op (hops op (List.mem_cons_self op ops))
    have h2 : noProto ops := fun o ho k hk => hops o (List.mem_cons_of_mem op ho) k hk
    rw [run, List.foldl_cons, ← run, specRun, List.foldl_cons, ← specRun]
    rw [ih (wf_step hWf op) h2, h1, step_capacity]

/-! ### Runs of fresh insertions (for the eviction-order claims) -/

theorem memStr_append (k : String) (l1 l2 : List String) :
    memStr k (l1 ++ l2) = (memStr k l1 || memStr k l2) := by
  induction l1 with
  | nil => simp [memStr]
  | cons s rest ih =>
    by_cases h : s = k
    · simp [memStr, h]
    · simp [memStr, h, ih]

theorem run_append (c : LRUCache) (ops1 ops2 : List Op) :
    run c (ops1 ++ ops2) = run (run c ops1) ops2 := by
  simp [run, List.foldl_append]

theorem run_puts_fresh (c : LRUCache) (es : List (String × JSVal))
    (hfresh : ∀ e ∈ es, jsIn c.cache e.1 = false)
    (hnd : (es.map Prod.fst).Nodup)
    (hsz : c.size + (es.length : Int) ≤ c.capacity) :
    run c (puts es) = { c with seq := es.reverse ++ c.seq,
                               cache := c.cache ++ es.map Prod.fst,
                               size := c.size + es.length } := by
  induction es generalizing c with
  | nil => simp [puts, run]
  | cons e rest ih =>
    have hsz1 : ¬ c.size = c.capacity := by
      simp only [List.length_cons] at hsz
      push_cast at hsz
      omega
    have he : jsIn c.cache e.1 = false := hfresh e (List.mem_cons_self e rest)
    have hstep : step c (Op.put e.1 e.2)
        = { c with seq := (e.1, e.2) :: c.seq,
                   cache := c.cache ++ [e.1],
                   size := c.size + 1 } :=
      step_put_fresh_notfull he hsz1
    have hnd' : (rest.map Prod.fst).Nodup := (List.nodup_cons.mp (by simpa using hnd)).2
    have hhead : e.1 ∉ rest.map Prod.fst := (List.nodup_cons.mp (by simpa using hnd)).1
    have hfresh' : ∀ e' ∈ rest,
        jsIn ({ c with seq := (e.1, e.2) :: c.seq,
                       cache := c.cache ++ [e.1],
                       size := c.size + 1 } : LRUCache).cache e'.1 = false := by
      intro e' he'
      obtain ⟨ho, hp⟩ := jsIn_eq_false_iff.mp (hfresh e' (List.mem_cons_of_mem e he'))
      refine jsIn_eq_false_iff.mpr ⟨?_, hp⟩
      show memStr e'.1 (c.cache ++ [e.1]) = false
      rw [memStr_append, ho]
      have : e.1 ≠ e'.1 := fun hEq =>
        hhead (hEq ▸ List.mem_map_of_mem Prod.fst he')
      simp [memStr, this]
    have hsz' : ({ c with seq := (e.1, e.2) :: c.seq,
                          cache := c.cache ++ [e.1],
                          size := c.size + 1 } : LRUCache).size
        + ((rest.length : Nat) : Int)
        ≤ ({ c with seq := (e.1, e.2) :: c.seq,
                    cache := c.cache ++ [e.1],
                    size := c.size + 1 } : LRUCache).capacity := by
      show c.size + 1 + ((rest.length : Nat) : Int) ≤ c.capacity
      simp only [List.length_cons] at hsz
      push_cast at hsz
      omega
    show run c (Op.put e.1 e.2 :: puts rest) = _
    rw [run, List.foldl_cons, ← run]
    show run (step c (Op.put e.1 e.2)) (puts rest) = _
    rw [hstep, ih _ hfresh' hnd' hsz']
    simp only [List.reverse_cons, List.append_assoc, List.singleton_append,
      List.map_cons, List.length_cons]
    refine LRUCache.mk.injEq .. |>.mpr ⟨rfl, ?_, ?_, ?_⟩
    · simp [List.append_assoc]
    · rfl
    · push_cast
      omega

/-! ### The specification claims -/

/-- C1: after every finite sequence of operations on a cache constructed
with capacity ≥ 1, `size` equals the number of keys in the index and the
number of non-sentinel nodes in the recency sequence, and `size` never
exceeds `capacity`; moreover, once `size` has reached `capacity`, a further
`put` of a new key evicts exactly the current LRU entry (the node before
`tail`) before inserting, leaving `size` unchanged. -/
theorem c1_size_invariant_and_eviction (cap : Int) (ops : List Op)
    (hcap : 1 ≤ cap) :
    ((run (LRUCache.init cap) ops).size
        = ((run (LRUCache.init cap) ops).cache.length : Int)
      ∧ (run (LRUCache.init cap) ops).size
        = ((run (LRUCache.init cap) ops).seq.length : Int)
      ∧ (run (LRUCache.init cap) ops).size ≤ cap)
    ∧ (∀ k v, (run (LRUCache.init cap) ops).size = cap →
        (run (LRUCache.init cap) ops).has k = false →
        ∃ lrest lastE,
          (run (LRUCache.init cap) ops).seq = lrest ++ [lastE]
          ∧ (run (LRUCache.init cap) ops).put k v
            = some { capacity := cap,
                     cache := removeStr lastE.1
                        (run (LRUCache.init cap) ops).cache ++ [k],
                     seq := (k, v) :: lrest,
                     size := (run (LRUCache.init cap) ops).size }) := by
  have hWf := wf_run (wf_init hcap) ops
  have hcapc : (run (LRUCache.init cap) ops).capacity = cap :=
    run_capacity (LRUCache.init cap) ops
  refine ⟨⟨?_, hWf.size_eq, ?_⟩, ?_⟩
  · rw [hWf.size_eq, hWf.cache_length]
  · exact le_of_le_of_eq hWf.size_le hcapc
  · intro k v hfull hhask
    have hin : jsIn (run (LRUCache.init cap) ops).cache k = false := hhask
    have hsz : (run (LRUCache.init cap) ops).size
        = (run (LRUCache.init cap) ops).capacity := by rw [hcapc]; exact hfull
    have hne := seq_ne_nil_of_full hWf hsz
    refine ⟨(run (LRUCache.init cap) ops).seq.dropLast,
      (run (LRUCache.init cap) ops).seq.getLast hne,
      (List.dropLast_append_getLast hne).symm, ?_⟩
    have hput := put_fresh_full (v := v) hin hsz (List.dropLast_append_getLast hne).symm
    rw [hcapc] at hput
    exact hput

/-- Witness for C1 at capacity 2 with two insertions. -/
theorem c1_witness :
    (1 : Int) ≤ 2
    ∧ (((run (LRUCache.init 2) [Op.put "a" (JSVal.num 1), Op.put "b" (JSVal.num 2)]).size
        = ((run (LRUCache.init 2) [Op.put "a" (JSVal.num 1), Op.put "b" (JSVal.num 2)]).cache.length : Int)
      ∧ (run (LRUCache.init 2) [Op.put "a" (JSVal.num 1), Op.put "b" (JSVal.num 2)]).size
        = ((run (LRUCache.init 2) [Op.put "a" (JSVal.num 1), Op.put "b" (JSVal.num 2)]).seq.length : Int)
      ∧ (run (LRUCache.init 2) [Op.put "a" (JSVal.num 1), Op.put "b" (JSVal.num 2)]).size ≤ 2)
    ∧ (∀ k v, (run (LRUCache.init 2) [Op.put "a" (JSVal.num 1), Op.put "b" (JSVal.num 2)]).size = 2 →
        (run (LRUCache.init 2) [Op.put "a" (JSVal.num 1), Op.put "b" (JSVal.num 2)]).has k = false →
        ∃ lrest lastE,
          (run (LRUCache.init 2) [Op.put "a" (JSVal.num 1), Op.put "b" (JSVal.num 2)]).seq = lrest ++ [lastE]
          ∧ (run (LRUCache.init 2) [Op.put "a" (JSVal.num 1), Op.put "b" (JSVal.num 2)]).put k v
            = some { capacity := 2,
                     cache := removeStr lastE.1
                        (run (LRUCache.init 2) [Op.put "a" (JSVal.num 1), Op.put "b" (JSVal.num 2)]).cache ++ [k],
                     seq := (k, v) :: lrest,
                     size := (run (LRUCache.init 2) [Op.put "a" (JSVal.num 1), Op.put "b" (JSVal.num 2)]).size })) :=
  ⟨by decide,
   c1_size_invariant_and_eviction 2 [Op.put "a" (JSVal.num 1), Op.put "b" (JSVal.num 2)] (by decide)⟩

/-- C3: after every finite sequence of operations whose keys do not shadow
`Object.prototype` property names, `getContents()` returns exactly `size`
entries `(key, value)`, in the order of the spec-side recency model (most
recently touched first, matching the actual order of `get`/`put` touches),
and the traversal itself changes nothing. -/
theorem c3_contents_recency_order (cap : Int) (ops : List Op)
    (hcap : 1 ≤ cap) (hops : noProto ops) :
    (run (LRUCache.init cap) ops).getContents = specRun cap [] ops
    ∧ ((run (LRUCache.init cap) ops).getContents.length : Int)
        = (run (LRUCache.init cap) ops).size
    ∧ step (run (LRUCache.init cap) ops) Op.contents
        = run (LRUCache.init cap) ops := by
  have hWf := wf_run (wf_init hcap) ops
  have h1 : (run (LRUCache.init cap) ops).getContents
      = (run (LRUCache.init cap) ops).seq := walk_eq _
  refine ⟨?_, ?_, rfl⟩
  · rw [h1]
    exact run_seq_spec (wf_init hcap) hops
  · rw [h1, hWf.size_eq]

/-- Witness for C3: capacity 2, a put/put/get/put interaction. -/
theorem c3_witness :
    (1 : Int) ≤ 2
    ∧ noProto [Op.put "a" (JSVal.num 1), Op.put "b" (JSVal.num 2), Op.get "a", Op.put "c" (JSVal.num 3)]
    ∧ ((run (LRUCache.init 2) [Op.put "a" (JSVal.num 1), Op.put "b" (JSVal.num 2), Op.get "a", Op.put "c" (JSVal.num 3)]).getContents
        = specRun 2 [] [Op.put "a" (JSVal.num 1), Op.put "b" (JSVal.num 2), Op.get "a", Op.put "c" (JSVal.num 3)]
    ∧ ((run (LRUCache.init 2) [Op.put "a" (JSVal.num 1), Op.put "b" (JSVal.num 2), Op.get "a", Op.put "c" (JSVal.num 3)]).getContents.length : Int)
        = (run (LRUCache.init 2) [Op.put "a" (JSVal.num 1), Op.put "b" (JSVal.num 2), Op.get "a", Op.put "c" (JSVal.num 3)]).size
    ∧ step (run (LRUCache.init 2) [Op.put "a" (JSVal.num 1), Op.put "b" (JSVal.num 2), Op.get "a", Op.put "c" (JSVal.num 3)]) Op.contents
        = run (LRUCache.init 2) [Op.put "a" (JSVal.num 1), Op.put "b" (JSVal.num 2), Op.get "a", Op.put "c" (JSVal.num 3)]) :=
  ⟨by decide, by decide,
   c3_contents_recency_order 2
     [Op.put "a" (JSVal.num 1), Op.put "b" (JSVal.num 2), Op.get "a", Op.put "c" (JSVal.num 3)]
     (by decide) (by decide)⟩

/-- C7: after every finite sequence of operations, `get` on a key present in
the index relinks that entry to the MRU position, returning its value and
leaving every other entry in its previous relative order; `has` never
mutates; `get` on a key absent from the index never mutates (for a
prototype-named key the thrown `TypeError` also leaves the state intact). -/
theorem c7_promotion_and_frame (cap : Int) (ops : List Op) (hcap : 1 ≤ cap) :
    (∀ k, memStr k (run (LRUCache.init cap) ops).cache = true →
        ∃ v, findVal? k (run (LRUCache.init cap) ops).seq = some v
          ∧ (run (LRUCache.init cap) ops).get k
            = some ({ run (LRUCache.init cap) ops with
                      seq := (k, v) :: (run (LRUCache.init cap) ops).seq.filter
                        (fun e => !(e.1 == k)) }, v))
    ∧ (∀ k, step (run (LRUCache.init cap) ops) (Op.has k)
        = run (LRUCache.init cap) ops)
    ∧ (∀ k, memStr k (run (LRUCache.init cap) ops).cache = false →
        step (run (LRUCache.init cap) ops) (Op.get k)
          = run (LRUCache.init cap) ops) := by
  have hWf := wf_run (wf_init hcap) ops
  refine ⟨?_, fun k => rfl, fun k hk => step_get_not_own hk⟩
  intro k hk
  obtain ⟨v, hv⟩ := findVal?_of_mem (hWf.mem_keys_of_own hk)
  refine ⟨v, hv, ?_⟩
  rw [get_own hk hv, removeKey_eq_filter hWf.keys_nodup]

/-- Witness for C7: capacity 2 after two puts. -/
theorem c7_witness :
    (1 : Int) ≤ 2
    ∧ ((∀ k, memStr k (run (LRUCache.init 2) [Op.put "a" (JSVal.num 1), Op.put "b" (JSVal.num 2)]).cache = true →
        ∃ v, findVal? k (run (LRUCache.init 2) [Op.put "a" (JSVal.num 1), Op.put "b" (JSVal.num 2)]).seq = some v
          ∧ (run (LRUCache.init 2) [Op.put "a" (JSVal.num 1), Op.put "b" (JSVal.num 2)]).get k
            = some ({ run (LRUCache.init 2) [Op.put "a" (JSVal.num 1), Op.put "b" (JSVal.num 2)] with
                      seq := (k, v) :: (run (LRUCache.init 2) [Op.put "a" (JSVal.num 1), Op.put "b" (JSVal.num 2)]).seq.filter
                        (fun e => !(e.1 == k)) }, v))
    ∧ (∀ k, step (run (LRUCache.init 2) [Op.put "a" (JSVal.num 1), Op.put "b" (JSVal.num 2)]) (Op.has k)
        = run (LRUCache.init 2) [Op.put "a" (JSVal.num 1), Op.put "b" (JSVal.num 2)])
    ∧ (∀ k, memStr k (run (LRUCache.init 2) [Op.put "a" (JSVal.num 1), Op.put "b" (JSVal.num 2)]).cache = false →
        step (run (LRUCache.init 2) [Op.put "a" (JSVal.num 1), Op.put "b" (JSVal.num 2)]) (Op.get k)
          = run (LRUCache.init 2) [Op.put "a" (JSVal.num 1), Op.put "b" (JSVal.num 2)])) :=
  ⟨by decide,
   c7_promotion_and_frame 2 [Op.put "a" (JSVal.num 1), Op.put "b" (JSVal.num 2)] (by decide)⟩

/-- C9: after every finite sequence of operations, `put` on an existing key
replaces the stored value and promotes the entry to the MRU position while
keeping `size`, the index, and the capacity literally unchanged (no
eviction even at capacity, every other entry kept in order); in particular
with capacity 2, `put(a,1)` then `put(a,2)` gives `size = 1` and
`get(a) = 2`. -/
theorem c9_put_existing_updates (cap : Int) (ops : List Op) (hcap : 1 ≤ cap) :
    (∀ k v, memStr k (run (LRUCache.init cap) ops).cache = true →
        (run (LRUCache.init cap) ops).put k v
          = some { run (LRUCache.init cap) ops with
                   seq := (k, v) :: (run (LRUCache.init cap) ops).seq.filter
                     (fun e => !(e.1 == k)) })
    ∧ (run (LRUCache.init 2) [Op.put "a" (JSVal.num 1), Op.put "a" (JSVal.num 2)]).size = 1
    ∧ ((run (LRUCache.init 2) [Op.put "a" (JSVal.num 1), Op.put "a" (JSVal.num 2)]).get "a").map Prod.snd
        = some (JSVal.num 2) := by
  have hWf := wf_run (wf_init hcap) ops
  refine ⟨?_, by decide, by decide⟩
  intro k v hk
  rw [put_own hk, removeKey_eq_filter hWf.keys_nodup]

/-- Witness for C9: capacity 3 after three puts. -/
theorem c9_witness :
    (1 : Int) ≤ 3
    ∧ ((∀ k v, memStr k (run (LRUCache.init 3) [Op.put "x" (JSVal.num 7), Op.put "y" (JSVal.num 8)]).cache = true →
        (run (LRUCache.init 3) [Op.put "x" (JSVal.num 7), Op.put "y" (JSVal.num 8)]).put k v
          = some { run (LRUCache.init 3) [Op.put "x" (JSVal.num 7), Op.put "y" (JSVal.num 8)] with
                   seq := (k, v) :: (run (LRUCache.init 3) [Op.put "x" (JSVal.num 7), Op.put "y" (JSVal.num 8)]).seq.filter
                     (fun e => !(e.1 == k)) })
    ∧ (run (LRUCache.init 2) [Op.put "a" (JSVal.num 1), Op.put "a" (JSVal.num 2)]).size = 1
    ∧ ((run (LRUCache.init 2) [Op.put "a" (JSVal.num 1), Op.put "a" (JSVal.num 2)]).get "a").map Prod.snd
        = some (JSVal.num 2)) :=
  ⟨by decide,
   c9_put_existing_updates 3 [Op.put "x" (JSVal.num 7), Op.put "y" (JSVal.num 8)] (by decide)⟩

/-- C10: after every finite sequence of operations, `clear()` empties the
index, resets the sequence to the sentinel-only state (`head.next = tail`,
i.e. no non-sentinel nodes), sets `size` to 0, makes `getContents()` empty,
and makes `has` false for every key that was present in the index. -/
theorem c10_clear_resets (cap : Int) (ops : List Op) (hcap : 1 ≤ cap) :
    (run (LRUCache.init cap) ops).clear.cache = []
    ∧ (run (LRUCache.init cap) ops).clear.seq = []
    ∧ (run (LRUCache.init cap) ops).clear.size = 0
    ∧ (run (LRUCache.init cap) ops).clear.getContents = []
    ∧ ∀ k ∈ (run (LRUCache.init cap) ops).cache,
        (run (LRUCache.init cap) ops).clear.has k = false := by
  have hWf := wf_run (wf_init hcap) ops
  refine ⟨rfl, rfl, rfl, rfl, ?_⟩
  intro k hk
  show jsIn (run (LRUCache.init cap) ops).clear.cache k = false
  exact jsIn_eq_false_iff.mpr ⟨rfl, hWf.no_proto k hk⟩

/-- Witness for C10: capacity 2 with two entries, then cleared. -/
theorem c10_witness :
    (1 : Int) ≤ 2
    ∧ ((run (LRUCache.init 2) [Op.put "a" (JSVal.num 1), Op.put "b" (JSVal.num 2)]).clear.cache = []
    ∧ (run (LRUCache.init 2) [Op.put "a" (JSVal.num 1), Op.put "b" (JSVal.num 2)]).clear.seq = []
    ∧ (run (LRUCache.init 2) [Op.put "a" (JSVal.num 1), Op.put "b" (JSVal.num 2)]).clear.size = 0
    ∧ (run (LRUCache.init 2) [Op.put "a" (JSVal.num 1), Op.put "b" (JSVal.num 2)]).clear.getContents = []
    ∧ ∀ k ∈ (run (LRUCache.init 2) [Op.put "a" (JSVal.num 1), Op.put "b" (JSVal.num 2)]).cache,
        (run (LRUCache.init 2) [Op.put "a" (JSVal.num 1), Op.put "b" (JSVal.num 2)]).clear.has k = false) :=
  ⟨by decide,
   c10_clear_resets 2 [Op.put "a" (JSVal.num 1), Op.put "b" (JSVal.num 2)] (by decide)⟩

/-- C4, counterexample: the "not found" result of `get` is the JavaScript
value `undefined`, which is itself a storable payload.  After
`put("a", undefined)`, the key `"a"` is present (`has` is true), yet
`get("a")` returns exactly the same result as `get("b")` on the absent key
`"b"` — the miss result is not distinct from every valid stored payload. -/
theorem c4_counterexample :
    (step (LRUCache.init 2) (Op.put "a" JSVal.undef)).has "a" = true
    ∧ (step (LRUCache.init 2) (Op.put "a" JSVal.undef)).get "a"
        = some (step (LRUCache.init 2) (Op.put "a" JSVal.undef), JSVal.undef)
    ∧ (step (LRUCache.init 2) (Op.put "a" JSVal.undef)).get "b"
        = some (step (LRUCache.init 2) (Op.put "a" JSVal.undef), JSVal.undef) := by
  decide

/-- C4, amended: `get` on a key absent from the cache (per the `in` check)
returns the sentinel `undefined` and causes no mutation, and `get` on a
present key returns the stored value — but the sentinel is `undefined`
itself, a value a stored payload can also take, so the miss result is only
distinct from stored payloads other than `undefined`. -/
theorem c4_get_contract (cap : Int) (ops : List Op) (hcap : 1 ≤ cap) :
    ∀ k,
      (jsIn (run (LRUCache.init cap) ops).cache k = false →
        (run (LRUCache.init cap) ops).get k
          = some (run (LRUCache.init cap) ops, JSVal.undef))
      ∧ (∀ v, findVal? k (run (LRUCache.init cap) ops).seq = some v →
          ∃ c', (run (LRUCache.init cap) ops).get k = some (c', v)) := by
  have hWf := wf_run (wf_init hcap) ops
  intro k
  refine ⟨fun h => get_miss h, fun v hv => ?_⟩
  have hk : k ∈ (run (LRUCache.init cap) ops).seq.map Prod.fst :=
    List.mem_map_of_mem Prod.fst (findVal?_mem hv)
  have hown : memStr k (run (LRUCache.init cap) ops).cache = true :=
    memStr_iff.mpr (hWf.perm.mem_iff.mpr hk)
  exact ⟨_, get_own hown hv⟩

/-- Witness for the amended C4 at a concrete cache. -/
theorem c4_witness :
    (1 : Int) ≤ 2
    ∧ (∀ k,
      (jsIn (run (LRUCache.init 2) [Op.put "a" (JSVal.num 1)]).cache k = false →
        (run (LRUCache.init 2) [Op.put "a" (JSVal.num 1)]).get k
          = some (run (LRUCache.init 2) [Op.put "a" (JSVal.num 1)], JSVal.undef))
      ∧ (∀ v, findVal? k (run (LRUCache.init 2) [Op.put "a" (JSVal.num 1)]).seq = some v →
          ∃ c', (run (LRUCache.init 2) [Op.put "a" (JSVal.num 1)]).get k = some (c', v))) :=
  ⟨by decide, c4_get_contract 2 [Op.put "a" (JSVal.num 1)] (by decide)⟩

/-- C5: the backing index is a plain object literal, so the `in` check of
`has` finds inherited `Object.prototype` properties: on a freshly built
cache whose index is empty, `has("toString")` already returns `true`, and
`get("toString")` does not return the miss result but follows the inherited
function into `moveToFront` and throws a `TypeError` (modelled `none`). -/
theorem c5_prototype_key_bug :
    (LRUCache.init 1).cache = []
    ∧ (LRUCache.init 1).has "toString" = true
    ∧ (LRUCache.init 1).get "toString" = none
    ∧ (LRUCache.init 1).put "toString" (JSVal.num 5) = none := by
  decide

/-- C6: the constructor performs no validation of `capacity`.
`new LRUCache(0)` yields an ordinary instance, and a single `put` on it
mis-accounts `size`: the internal decrement of `removeLRU`'s no-op branch
runs anyway, so afterwards `size` is 0 while one entry is actually stored
in both the index and the sequence. -/
theorem c6_no_capacity_validation :
    LRUCache.init 0
      = { capacity := 0, cache := [], seq := [], size := 0 }
    ∧ (step (LRUCache.init 0) (Op.put "a" (JSVal.num 1))).size = 0
    ∧ (step (LRUCache.init 0) (Op.put "a" (JSVal.num 1))).seq.length = 1
    ∧ (step (LRUCache.init 0) (Op.put "a" (JSVal.num 1))).cache.length = 1 := by
  decide

/-- C8, counterexample: `delete("toString")` on a fresh cache — a key that
was never stored — does not return `false`: the `in` check finds the
inherited property, `removeNode` dereferences `undefined.prev`, and a
`TypeError` is thrown (modelled `none`). -/
theorem c8_counterexample :
    (LRUCache.init 1).cache = []
    ∧ (LRUCache.init 1).delete "toString" = none := by
  decide

/-- C8, amended: for every key that is not an `Object.prototype` property
name, `delete` behaves as claimed: on an absent key it returns `false` and
changes nothing; on a present key it returns `true`, removes the entry from
both the index and the sequence (leaving all other entries in order),
decrements `size` by exactly 1, and afterwards `has` is false.  (On absent
prototype-named keys it instead throws, per the counterexample.) -/
theorem c8_delete_contract (cap : Int) (ops : List Op) (hcap : 1 ≤ cap) :
    ∀ k, memStr k protoKeys = false →
      (memStr k (run (LRUCache.init cap) ops).cache = false →
        (run (LRUCache.init cap) ops).delete k
          = some (run (LRUCache.init cap) ops, false))
      ∧ (memStr k (run (LRUCache.init cap) ops).cache = true →
        ∃ c', (run (LRUCache.init cap) ops).delete k = some (c', true)
          ∧ c'.seq = (run (LRUCache.init cap) ops).seq.filter (fun e => !(e.1 == k))
          ∧ c'.cache = removeStr k (run (LRUCache.init cap) ops).cache
          ∧ c'.size = (run (LRUCache.init cap) ops).size - 1
          ∧ c'.has k = false) := by
  have hWf := wf_run (wf_init hcap) ops
  intro k hp
  constructor
  · intro h
    exact delete_miss (jsIn_eq_false_iff.mpr ⟨h, hp⟩)
  · intro h
    refine ⟨_, delete_own h, ?_, rfl, rfl, ?_⟩
    · exact removeKey_eq_filter hWf.keys_nodup
    · show jsIn (removeStr k (run (LRUCache.init cap) ops).cache) k = false
      refine jsIn_eq_false_iff.mpr ⟨?_, hp⟩
      rw [removeStr_eq_erase]
      exact memStr_eq_false.mpr (hWf.nodup.not_mem_erase)

/-- Witness for the amended C8 at a concrete cache. -/
theorem c8_witness :
    (1 : Int) ≤ 2
    ∧ (∀ k, memStr k protoKeys = false →
      (memStr k (run (LRUCache.init 2) [Op.put "a" (JSVal.num 1)]).cache = false →
        (run (LRUCache.init 2) [Op.put "a" (JSVal.num 1)]).delete k
          = some (run (LRUCache.init 2) [Op.put "a" (JSVal.num 1)], false))
      ∧ (memStr k (run (LRUCache.init 2) [Op.put "a" (JSVal.num 1)]).cache = true →
        ∃ c', (run (LRUCache.init 2) [Op.put "a" (JSVal.num 1)]).delete k = some (c', true)
          ∧ c'.seq = (run (LRUCache.init 2) [Op.put "a" (JSVal.num 1)]).seq.filter (fun e => !(e.1 == k))
          ∧ c'.cache = removeStr k (run (LRUCache.init 2) [Op.put "a" (JSVal.num 1)]).cache
          ∧ c'.size = (run (LRUCache.init 2) [Op.put "a" (JSVal.num 1)]).size - 1
          ∧ c'.has k = false)) :=
  ⟨by decide, c8_delete_contract 2 [Op.put "a" (JSVal.num 1)] (by decide)⟩

/-- C2, counterexample: with capacity 2, `put(a,1)`, `put(b,2)`, `get(a)`,
`put(c,3)` makes `getContents()` return `[{c,3},{a,1}]` — most recently
touched first — and not `[{a,1},{c,3}]` as the claim's example states. -/
theorem c2_counterexample :
    (run (LRUCache.init 2)
        [Op.put "a" (JSVal.num 1), Op.put "b" (JSVal.num 2), Op.get "a",
         Op.put "c" (JSVal.num 3)]).getContents
      ≠ [("a", JSVal.num 1), ("c", JSVal.num 3)] := by
  decide

/-- C2, amended: with capacity N ≥ 1, putting N+1 distinct fresh keys with
no intervening reads evicts exactly the first-inserted key; interleaving a
`get` on the oldest key before the (N+1)th put (when N ≥ 2) spares it and
evicts the next-oldest key instead; and in the capacity-2 example the
resulting `getContents()` is `[{c,3},{a,1}]` (MRU first), with b evicted
and a spared. -/
theorem c2_eviction_order (cap : Int) (e0 lastE : String × JSVal)
    (mid : List (String × JSVal))
    (hcap : 1 ≤ cap)
    (hlen : ((mid.length : Nat) : Int) = cap - 1)
    (hnd : ((e0 :: (mid ++ [lastE])).map Prod.fst).Nodup)
    (hproto : ∀ e ∈ e0 :: (mid ++ [lastE]), memStr e.1 protoKeys = false) :
    ((run (LRUCache.init cap) (puts (e0 :: (mid ++ [lastE])))).getContents
        = lastE :: mid.reverse
      ∧ e0.1 ∉ ((run (LRUCache.init cap)
          (puts (e0 :: (mid ++ [lastE])))).getContents.map Prod.fst))
    ∧ (∀ m1 mrest, mid = m1 :: mrest →
        (run (LRUCache.init cap)
            (puts (e0 :: mid) ++ [Op.get e0.1, Op.put lastE.1 lastE.2])).getContents
          = lastE :: e0 :: mrest.reverse
        ∧ m1.1 ∉ ((run (LRUCache.init cap)
            (puts (e0 :: mid) ++ [Op.get e0.1, Op.put lastE.1 lastE.2])).getContents.map Prod.fst))
    ∧ (run (LRUCache.init 2)
        [Op.put "a" (JSVal.num 1), Op.put "b" (JSVal.num 2), Op.get "a",
         Op.put "c" (JSVal.num 3)]).getContents
      = [("c", JSVal.num 3), ("a", JSVal.num 1)] := by
  have hkeys : (e0 :: (mid ++ [lastE])).map Prod.fst
      = e0.1 :: (mid.map Prod.fst ++ [lastE.1]) := by simp
  rw [hkeys] at hnd
  have h1 := List.nodup_cons.mp hnd
  have he0mid : e0.1 ∉ mid.map Prod.fst := fun h => h1.1 (List.mem_append_left _ h)
  have he0last : e0.1 ≠ lastE.1 := fun h =>
    h1.1 (List.mem_append_right _ (by simp [h]))
  have h2 : (lastE.1 :: mid.map Prod.fst).Nodup :=
    (List.perm_append_singleton lastE.1 (mid.map Prod.fst)).nodup_iff.mp h1.2
  have hlastmid : lastE.1 ∉ mid.map Prod.fst := (List.nodup_cons.mp h2).1
  have hmidnd : (mid.map Prod.fst).Nodup := (List.nodup_cons.mp h2).2
  have hprotofill : ∀ e ∈ e0 :: mid, memStr e.1 protoKeys = false := by
    intro e he
    rcases List.mem_cons.mp he with rfl | hm
    · exact hproto e (List.mem_cons_self _ _)
    · exact hproto e (List.mem_cons_of_mem _ (List.mem_append_left _ hm))
  have hfresh0 : ∀ e ∈ e0 :: mid, jsIn (LRUCache.init cap).cache e.1 = false :=
    fun e he => jsIn_eq_false_iff.mpr ⟨rfl, hprotofill e he⟩
  have hndfill : ((e0 :: mid).map Prod.fst).Nodup := by
    simp only [List.map_cons]
    exact List.nodup_cons.mpr ⟨he0mid, hmidnd⟩
  have hszfill : (LRUCache.init cap).size + (((e0 :: mid).length : Nat) : Int)
      ≤ (LRUCache.init cap).capacity := by
    show (0 : Int) + _ ≤ cap
    simp only [List.length_cons]
    push_cast
    omega
  have hc1 : run (LRUCache.init cap) (puts (e0 :: mid))
      = { capacity := cap, cache := (e0 :: mid).map Prod.fst,
          seq := (e0 :: mid).reverse, size := (((e0 :: mid).length : Nat) : Int) } := by
    rw [run_puts_fresh (LRUCache.init cap) (e0 :: mid) hfresh0 hndfill hszfill]
    simp [LRUCache.init]
  have hc1size : ((((e0 :: mid).length : Nat)) : Int) = cap := by
    simp only [List.length_cons]
    push_cast
    omega
  have hfreshlastc1 : jsIn ((e0 :: mid).map Prod.fst) lastE.1 = false := by
    refine jsIn_eq_false_iff.mpr ⟨?_, hproto lastE ?_⟩
    · refine memStr_eq_false.mpr ?_
      simp only [List.map_cons, List.mem_cons]
      rintro (h | h)
      · exact he0last h.symm
      · exact hlastmid h
    · exact List.mem_cons_of_mem _ (List.mem_append_right _ (List.mem_singleton_self _))
  have hrun1 : ∀ (c : LRUCache) (op : Op), run c [op] = step c op := fun _ _ => rfl
  have hrun2 : ∀ (c : LRUCache) (op1 op2 : Op),
      run c [op1, op2] = step (step c op1) op2 := fun _ _ _ => rfl
  -- Part A: the first-inserted entry is the one evicted
  have hA : (run (LRUCache.init cap) (puts (e0 :: (mid ++ [lastE])))).getContents
      = lastE :: mid.reverse := by
    have hsplit : e0 :: (mid ++ [lastE]) = (e0 :: mid) ++ [lastE] := by simp
    have hput : puts ((e0 :: mid) ++ [lastE]) = puts (e0 :: mid) ++ puts [lastE] := by
      simp [puts]
    rw [hsplit, hput, run_append, hc1]
    show (run _ [Op.put lastE.1 lastE.2]).getContents = _
    rw [hrun1]
    rw [step_put_fresh_full hfreshlastc1 hc1size
      (show ((e0 :: mid).reverse : List (String × JSVal)) = mid.reverse ++ [e0] from
        List.reverse_cons e0 mid)]
    simp [LRUCache.getContents, walk_eq]
  -- Part B: a read on the oldest key spares it; the next-oldest is evicted
  have hB : ∀ m1 mrest, mid = m1 :: mrest →
      (run (LRUCache.init cap)
          (puts (e0 :: mid) ++ [Op.get e0.1, Op.put lastE.1 lastE.2])).getContents
        = lastE :: e0 :: mrest.reverse := by
    intro m1 mrest hmid
    rw [run_append, hc1, hrun2]
    have hown1 : memStr e0.1 (((e0 :: mid).map Prod.fst : List String)) = true := by
      refine memStr_iff.mpr ?_
      simp
    have hnotrev : e0.1 ∉ (mid.reverse.map Prod.fst : List String) := by
      rw [List.map_reverse]
      intro h
      exact he0mid (List.mem_reverse.mp h)
    have hfind : findVal? e0.1 ((e0 :: mid).reverse : List (String × JSVal))
        = some e0.2 := by
      rw [List.reverse_cons, findVal?_append_of_not_mem hnotrev]
      simp [findVal?]
    have hget := step_get_own
      (c := { capacity := cap, cache := (e0 :: mid).map Prod.fst,
              seq := (e0 :: mid).reverse, size := (((e0 :: mid).length : Nat) : Int) })
      hown1 hfind
    rw [hget]
    have hseq2 : ((e0.1, e0.2) : String × JSVal)
          :: removeKey e0.1 ((e0 :: mid).reverse)
        = (e0 :: mrest.reverse) ++ [m1] := by
      rw [List.reverse_cons, removeKey_append_of_not_mem hnotrev]
      simp [removeKey, hmid, List.reverse_cons]
    rw [hseq2]
    rw [step_put_fresh_full hfreshlastc1 hc1size rfl]
    simp [LRUCache.getContents, walk_eq]
  refine ⟨⟨hA, ?_⟩, ?_, by decide⟩
  · rw [hA]
    simp only [List.map_cons, List.mem_cons, List.map_reverse, List.mem_reverse]
    rintro (h | h)
    · exact he0last h
    · exact he0mid (List.mem_reverse.mp (by rwa [List.mem_reverse] : e0.1 ∈ (mid.map Prod.fst).reverse))
  · intro m1 mrest hmid
    refine ⟨hB m1 mrest hmid, ?_⟩
    have hm1mid : m1.1 ∈ mid.map Prod.fst := by
      rw [hmid]; simp
    have hm1rest : m1.1 ∉ mrest.map Prod.fst := by
      have := hmidnd
      rw [hmid] at this
      simp only [List.map_cons, List.nodup_cons] at this
      exact this.1
    rw [hB m1 mrest hmid]
    simp only [List.map_cons, List.mem_cons, List.map_reverse, List.mem_reverse]
    rintro (h | h | h)
    · exact hlastmid (h ▸ hm1mid)
    · exact he0mid (h ▸ hm1mid)
    · exact hm1rest h

/-- Witness for the amended C2 at capacity 2 with keys a, b, c. -/
theorem c2_witness :
    (1 : Int) ≤ 2
    ∧ ((([("b", JSVal.num 2)] : List (String × JSVal)).length : Int) = 2 - 1)
    ∧ (((run (LRUCache.init 2) (puts (("a", JSVal.num 1) :: ([("b", JSVal.num 2)] ++ [("c", JSVal.num 3)])))).getContents
        = ("c", JSVal.num 3) :: ([("b", JSVal.num 2)] : List (String × JSVal)).reverse
      ∧ ("a", JSVal.num 1).1 ∉ ((run (LRUCache.init 2)
          (puts (("a", JSVal.num 1) :: ([("b", JSVal.num 2)] ++ [("c", JSVal.num 3)])))).getContents.map Prod.fst))
    ∧ (∀ m1 mrest, ([("b", JSVal.num 2)] : List (String × JSVal)) = m1 :: mrest →
        (run (LRUCache.init 2)
            (puts (("a", JSVal.num 1) :: [("b", JSVal.num 2)]) ++ [Op.get ("a", JSVal.num 1).1, Op.put ("c", JSVal.num 3).1 ("c", JSVal.num 3).2])).getContents
          = ("c", JSVal.num 3) :: ("a", JSVal.num 1) :: mrest.reverse
        ∧ m1.1 ∉ ((run (LRUCache.init 2)
            (puts (("a", JSVal.num 1) :: [("b", JSVal.num 2)]) ++ [Op.get ("a", JSVal.num 1).1, Op.put ("c", JSVal.num 3).1 ("c", JSVal.num 3).2])).getContents.map Prod.fst))
    ∧ (run (LRUCache.init 2)
        [Op.put "a" (JSVal.num 1), Op.put "b" (JSVal.num 2), Op.get "a",
         Op.put "c" (JSVal.num 3)]).getContents
      = [("c", JSVal.num 3), ("a", JSVal.num 1)]) :=
  ⟨by decide, by decide,
   c2_eviction_order 2 ("a", JSVal.num 1) ("c", JSVal.num 3) [("b", JSVal.num 2)]
     (by decide) (by decide) (by decide) (by decide)⟩

end LRUModel
